import Mathlib

/-!
Verification development for the MJPEG stream player (src/src/main.cpp).

Shallow embedding of the core of the program: the JPEG frame scanner
`findJpegFrame` (lines 139-154), the buffer management of `handleClient`
(read/append lines 272-283, scan/extract/decode/compact lines 285-313,
overflow reset lines 316-320, stats window lines 322-337, connect reset
lines 252-266, disconnect reset line 347), and the timeout-guarded
`readExactly` helper (lines 112-136).

Modelling conventions:
- bytes are natural numbers; the markers 0xFF, 0xD8, 0xD9 are 255, 216, 217;
- a buffer is the list of live bytes `jpegBuffer[0 .. jpegBufferPos)`;
  `jpegBufferPos` is the list length (bytes past the position are never
  read by the program, so they are not part of the model);
- `size_t` arithmetic is Nat, except where unsigned underflow matters,
  which is modelled explicitly with `sizeSub` (see the loop-bound
  analysis of `findJpegFrame` for `len = 0`);
- wall-clock time (`millis()`) is modelled as an explicit Nat-valued
  sample carried by the environment trace of `readExactly`;
- the JPEG decoder `TJpgDec.drawJpg` is an external collaborator and is
  modelled as an oracle `dec : List Nat → Bool` giving the success of
  each decode call.
-/

/-- Capacity of the JPEG accumulation buffer: `MAX_JPEG_SIZE = 100 * 1024`. -/
def MAX_JPEG_SIZE : Nat := 100 * 1024

/-- The condition of the two scanning loops of `findJpegFrame`:
`buffer[j] == 0xFF && buffer[j + 1] == second`, where `second` is
216 (0xD8) for the SOI scan and 217 (0xD9) for the EOI scan.
Out-of-range reads are given the default byte 0; the scanner itself only
evaluates this within bounds (see the loop-bound theorem). -/
def pairAt (buf : List Nat) (second j : Nat) : Prop :=
  buf.getD j 0 = 255 ∧ buf.getD (j + 1) 0 = second

instance (buf : List Nat) (second j : Nat) : Decidable (pairAt buf second j) :=
  inferInstanceAs (Decidable (_ ∧ _))

/-- One scanning loop of `findJpegFrame`:
`for (j = start; j < bound; j++) if (buffer[j] == 0xFF && buffer[j+1] == second) return j;`.
`fuel` is the number of remaining iterations (`bound - start` at the top
call, see `findPairFrom`); making it a structural argument keeps the
function kernel-computable. -/
def findPairAux (buf : List Nat) (second bound : Nat) : Nat → Nat → Option Nat
  | _, 0 => none
  | j, fuel + 1 =>
    if j < bound then
      if pairAt buf second j then some j
      else findPairAux buf second bound (j + 1) fuel
    else none

/-- Scan `[start, bound)` for the first marker pair `0xFF, second`. -/
def findPairFrom (buf : List Nat) (second bound start : Nat) : Option Nat :=
  findPairAux buf second bound start (bound - start)

/-- Translation of `findJpegFrame` (main.cpp lines 139-154). It scans
`[0, len-1)` for the first SOI pair `0xFF 0xD8`; on a hit at `i` it scans
`[i+2, len-1)` for the first EOI pair `0xFF 0xD9`; on a hit at `j` it
returns the frame size `j + 2 - i`. The result is the pair
(returned size, value of `*frameStart` after the call); the source
writes `*frameStart` exactly when an SOI is found. A zero first
component is the "no complete frame" result. -/
def findJpegFrame (buffer : List Nat) (len frameStart : Nat) : Nat × Nat :=
  match findPairFrom buffer 216 (len - 1) 0 with
  | none => (0, frameStart)
  | some i =>
    match findPairFrom buffer 217 (len - 1) (i + 2) with
    | none => (0, i)
    | some j => (j + 2 - i, i)

/-- An SOI marker `0xFF 0xD8` lies (fully in bounds) at index `i`. -/
def soiAt (s : List Nat) (i : Nat) : Prop :=
  i + 1 < s.length ∧ pairAt s 216 i

/-- An EOI marker `0xFF 0xD9` lies (fully in bounds) at index `j`. -/
def eoiAt (s : List Nat) (j : Nat) : Prop :=
  j + 1 < s.length ∧ pairAt s 217 j

instance (s : List Nat) (i : Nat) : Decidable (soiAt s i) :=
  inferInstanceAs (Decidable (_ ∧ _))

instance (s : List Nat) (j : Nat) : Decidable (eoiAt s j) :=
  inferInstanceAs (Decidable (_ ∧ _))

/-- The buffer contains a complete frame: an SOI followed (at distance at
least 2, so the markers do not overlap) by an EOI. -/
def hasFrame (s : List Nat) : Prop :=
  ∃ i j, i + 2 ≤ j ∧ soiAt s i ∧ eoiAt s j

/-- `i0` is the first SOI of `s` and `j0` the first EOI at or after
`i0 + 2`: the frame `[i0, j0 + 2)` that the scanner is specified to
report. -/
def firstSoiEoi (s : List Nat) (i0 j0 : Nat) : Prop :=
  soiAt s i0 ∧ (∀ k, k < i0 → ¬ soiAt s k) ∧
    i0 + 2 ≤ j0 ∧ eoiAt s j0 ∧ (∀ k, i0 + 2 ≤ k → k < j0 → ¬ eoiAt s k)

/-! ### Characterization of the scanning loops -/

theorem findPairAux_some_iff (buf : List Nat) (second bound : Nat) :
    ∀ fuel j r, bound ≤ j + fuel →
      (findPairAux buf second bound j fuel = some r ↔
        (j ≤ r ∧ r < bound ∧ pairAt buf second r ∧
          ∀ k, j ≤ k → k < r → ¬ pairAt buf second k)) := by
  intro fuel
  induction fuel with
  | zero =>
    intro j r hb
    simp only [findPairAux]
    constructor
    · intro h; exact absurd h (by simp)
    · intro ⟨h1, h2, _, _⟩; omega
  | succ n ih =>
    intro j r hb
    simp only [findPairAux]
    by_cases hj : j < bound
    · simp only [if_pos hj]
      by_cases hp : pairAt buf second j
      · simp only [if_pos hp]
        constructor
        · intro h
          obtain rfl : j = r := by simpa using h
          exact ⟨Nat.le_refl _, hj, hp, fun k h1 h2 _ => by omega⟩
        · intro ⟨h1, _, hpr, hmin⟩
          have : j = r := by
            by_contra hne
            exact hmin j (Nat.le_refl _) (by omega) hp
          simp [this]
      · simp only [if_neg hp]
        rw [ih (j + 1) r (by omega)]
        constructor
        · intro ⟨h1, h2, h3, h4⟩
          refine ⟨by omega, h2, h3, fun k hk1 hk2 => ?_⟩
          rcases Nat.eq_or_lt_of_le hk1 with rfl | hlt
          · exact hp
          · exact h4 k hlt hk2
        · intro ⟨h1, h2, h3, h4⟩
          have hjr : j ≠ r := fun hjr => hp (hjr ▸ h3)
          exact ⟨by omega, h2, h3, fun k hk1 hk2 => h4 k (by omega) hk2⟩
    · simp only [if_neg hj]
      constructor
      · intro h; exact absurd h (by simp)
      · intro ⟨h1, h2, _, _⟩; omega

theorem findPairAux_none_iff (buf : List Nat) (second bound : Nat) :
    ∀ fuel j, bound ≤ j + fuel →
      (findPairAux buf second bound j fuel = none ↔
        ∀ k, j ≤ k → k < bound → ¬ pairAt buf second k) := by
  intro fuel
  induction fuel with
  | zero =>
    intro j hb
    simp only [findPairAux]
    constructor
    · intro _ k h1 h2; omega
    · intro _; trivial
  | succ n ih =>
    intro j hb
    simp only [findPairAux]
    by_cases hj : j < bound
    · simp only [if_pos hj]
      by_cases hp : pairAt buf second j
      · simp only [if_pos hp]
        constructor
        · intro h; exact absurd h (by simp)
        · intro h; exact absurd hp (h j (Nat.le_refl _) hj)
      · simp only [if_neg hp]
        rw [ih (j + 1) (by omega)]
        constructor
        · intro h k hk1 hk2
          rcases Nat.eq_or_lt_of_le hk1 with rfl | hlt
          · exact hp
          · exact h k hlt hk2
        · intro h k hk1 hk2
          exact h k (by omega) hk2
    · simp only [if_neg hj]
      constructor
      · intro _ k h1 h2; omega
      · intro _; trivial

theorem findPairFrom_some_iff (buf : List Nat) (second bound start r : Nat) :
    findPairFrom buf second bound start = some r ↔
      (start ≤ r ∧ r < bound ∧ pairAt buf second r ∧
        ∀ k, start ≤ k → k < r → ¬ pairAt buf second k) :=
  findPairAux_some_iff buf second bound (bound - start) start r (by omega)

theorem findPairFrom_none_iff (buf : List Nat) (second bound start : Nat) :
    findPairFrom buf second bound start = none ↔
      ∀ k, start ≤ k → k < bound → ¬ pairAt buf second k :=
  findPairAux_none_iff buf second bound (bound - start) start (by omega)

/-- In-bounds fact: a marker pair with a nonzero second byte cannot match
past the end of the buffer, because out-of-range reads default to 0. -/
theorem pairAt_lt_length {buf : List Nat} {second j : Nat}
    (h : pairAt buf second j) (hs : second ≠ 0) : j + 1 < buf.length := by
  by_contra hge
  have hd : buf.getD (j + 1) 0 = 0 := List.getD_eq_default buf 0 (by omega)
  exact hs (h.2.symm.trans hd)

/-- Marker pairs are stable under appending: a pair strictly inside the
left list is a pair of the concatenation, and conversely. -/
theorem pairAt_append_left {s : List Nat} (t : List Nat) {second j : Nat}
    (hj : j + 1 < s.length) : pairAt (s ++ t) second j ↔ pairAt s second j := by
  unfold pairAt
  rw [List.getD_append s t 0 j (by omega), List.getD_append s t 0 (j + 1) (by omega)]

/-! ### The scanner on buffers with / without a complete frame -/

/-- A complete frame needs at least the four marker bytes. -/
theorem hasFrame_length {s : List Nat} (h : hasFrame s) : 4 ≤ s.length := by
  obtain ⟨i, j, hij, hs, he⟩ := h
  have := he.1
  omega

/-- An in-bounds SOI and a later in-bounds EOI are always at least two
apart, because the marker pairs cannot overlap. -/
theorem soi_eoi_sep {s : List Nat} {i j : Nat}
    (hs : soiAt s i) (he : eoiAt s j) (hij : i < j) : i + 2 ≤ j := by
  by_contra h
  obtain rfl : j = i + 1 := by omega
  have h1 : s.getD (i + 1) 0 = 216 := hs.2.2
  have h2 : s.getD (i + 1) 0 = 255 := he.2.1
  omega

/-- Every buffer with a complete frame has a first SOI and, after it, a
first EOI. -/
theorem hasFrame_firstSoiEoi {s : List Nat} (h : hasFrame s) :
    ∃ i0 j0, firstSoiEoi s i0 j0 := by
  obtain ⟨i, j, hij, hs, he⟩ := h
  have hex : ∃ k, soiAt s k := ⟨i, hs⟩
  let i0 := Nat.find hex
  have hi0 : soiAt s i0 := Nat.find_spec hex
  have hi0min : ∀ k, k < i0 → ¬ soiAt s k := fun k hk => Nat.find_min hex hk
  have hi0le : i0 ≤ i := Nat.find_min' hex hs
  have hex2 : ∃ k, eoiAt s k ∧ i0 + 2 ≤ k := ⟨j, he, by omega⟩
  let j0 := Nat.find hex2
  have hj0 : eoiAt s j0 ∧ i0 + 2 ≤ j0 := Nat.find_spec hex2
  refine ⟨i0, j0, hi0, hi0min, hj0.2, hj0.1, fun k hk1 hk2 hke => ?_⟩
  exact Nat.find_min hex2 hk2 ⟨hke, hk1⟩

/-- Main positive characterization: on a buffer whose first SOI is `i0`
and whose first subsequent EOI is `j0`, `findJpegFrame` returns the size
`j0 + 2 - i0` and writes `frameStart = i0` — for any initial value of
`frameStart` and any leading garbage before `i0`. -/
theorem findJpegFrame_eq_of_firstSoiEoi {s : List Nat} {i0 j0 : Nat}
    (h : firstSoiEoi s i0 j0) (fs0 : Nat) :
    findJpegFrame s s.length fs0 = (j0 + 2 - i0, i0) := by
  obtain ⟨hsoi, hsmin, hsep, heoi, hemin⟩ := h
  have hsoi_len : i0 + 1 < s.length := hsoi.1
  have heoi_len : j0 + 1 < s.length := heoi.1
  have h1 : findPairFrom s 216 (s.length - 1) 0 = some i0 := by
    rw [findPairFrom_some_iff]
    refine ⟨Nat.zero_le _, by omega, hsoi.2, fun k _ hk2 hpk => ?_⟩
    have hkl : k + 1 < s.length := pairAt_lt_length hpk (by omega)
    exact hsmin k hk2 ⟨hkl, hpk⟩
  have h2 : findPairFrom s 217 (s.length - 1) (i0 + 2) = some j0 := by
    rw [findPairFrom_some_iff]
    refine ⟨hsep, by omega, heoi.2, fun k hk1 hk2 hpk => ?_⟩
    have hkl : k + 1 < s.length := pairAt_lt_length hpk (by omega)
    exact hemin k hk1 hk2 ⟨hkl, hpk⟩
  simp only [findJpegFrame, h1, h2]

/-- Negative characterization: without a complete frame the returned
size is 0, whether or not an SOI is present. -/
theorem findJpegFrame_fst_eq_zero {s : List Nat} (h : ¬ hasFrame s) (fs0 : Nat) :
    (findJpegFrame s s.length fs0).1 = 0 := by
  cases h1 : findPairFrom s 216 (s.length - 1) 0 with
  | none => simp [findJpegFrame, h1]
  | some i =>
    cases h2 : findPairFrom s 217 (s.length - 1) (i + 2) with
    | none => simp [findJpegFrame, h1, h2]
    | some j =>
      exfalso
      rw [findPairFrom_some_iff] at h1 h2
      exact h ⟨i, j, h2.1, ⟨by omega, h1.2.2.1⟩, ⟨by omega, h2.2.2.1⟩⟩

/-- Converse: a positive returned size exhibits a complete frame and in
fact the first one. -/
theorem findJpegFrame_pos_spec {s : List Nat} {fs0 size start : Nat}
    (h : findJpegFrame s s.length fs0 = (size, start)) (hpos : 0 < size) :
    firstSoiEoi s start (start + size - 2) ∧ start + size ≤ s.length := by
  cases h1 : findPairFrom s 216 (s.length - 1) 0 with
  | none =>
    simp only [findJpegFrame, h1] at h
    exact absurd (congrArg Prod.fst h) (by simp; omega)
  | some i =>
    cases h2 : findPairFrom s 217 (s.length - 1) (i + 2) with
    | none =>
      simp only [findJpegFrame, h1, h2] at h
      exact absurd (congrArg Prod.fst h) (by simp; omega)
    | some j =>
      simp only [findJpegFrame, h1, h2] at h
      obtain ⟨hsz, hst⟩ : j + 2 - i = size ∧ i = start := by
        constructor
        · exact congrArg Prod.fst h
        · exact congrArg Prod.snd h
      rw [findPairFrom_some_iff] at h1 h2
      obtain ⟨_, hib, hip, himin⟩ := h1
      obtain ⟨hji, hjb, hjp, hjmin⟩ := h2
      have hje : start + size - 2 = j := by omega
      subst hst
      constructor
      · refine ⟨⟨by omega, hip⟩, ?_, by omega, ?_, ?_⟩
        · intro k hk hks
          exact himin k (Nat.zero_le _) hk hks.2
        · rw [hje]; exact ⟨by omega, hjp⟩
        · intro k hk1 hk2 hke
          exact hjmin k hk1 (by omega) hke.2
      · omega

/-! ### The drive cycle of `handleClient` (data path) -/

/-- The read/append step of `handleClient` (lines 272-283): at most
`MAX_JPEG_SIZE - jpegBufferPos` of the available bytes are read into the
buffer at offset `jpegBufferPos`. The result is the new buffer and the
number of bytes consumed (`bytesRead`, which is also added to
`totalBytesReceived`). Bytes of the chunk beyond the consumed count are
not copied. -/
def appendStep (buf chunk : List Nat) : List Nat × Nat :=
  let toRead := min chunk.length (MAX_JPEG_SIZE - buf.length)
  (buf ++ chunk.take toRead, toRead)

/-- The scan/extract/compact step of `handleClient` (lines 285-312),
decode call excluded (it does not affect the data path, see the decode
failure theorem): if the buffer holds at least 4 bytes and the scanner
reports a frame, the frame bytes `[frameStart, frameStart + frameSize)`
are extracted and the buffer is compacted past `frameEnd` (`memmove`
when `frameEnd < jpegBufferPos`, else reset to 0). Returns the new
buffer and the list of frames extracted (empty or a singleton). -/
def scanStep (buf : List Nat) : List Nat × List (List Nat) :=
  if 4 ≤ buf.length then
    let r := findJpegFrame buf buf.length 0
    if 0 < r.1 then
      let frameEnd := r.2 + r.1
      ((if frameEnd < buf.length then buf.drop frameEnd else []),
        [(buf.drop r.2).take r.1])
    else (buf, [])
  else (buf, [])

/-- The overflow guard of `handleClient` (lines 316-320): if
`jpegBufferPos > MAX_JPEG_SIZE - 1024` the buffer is reset to empty. -/
def overflowStep (buf : List Nat) : List Nat :=
  if MAX_JPEG_SIZE - 1024 < buf.length then [] else buf

/-- One drive cycle of the connected session, data path only: read the
arriving chunk, scan for (at most) one complete frame, compact, then
apply the overflow guard. Returns the new buffer and the extracted
frames. -/
def driveCycle (buf chunk : List Nat) : List Nat × List (List Nat) :=
  let a := appendStep buf chunk
  let s := scanStep a.1
  (overflowStep s.1, s.2)

/-- Repeated drive cycles over a list of arriving chunks, collecting all
extracted frames in order. -/
def driveChunks (buf : List Nat) : List (List Nat) → List Nat × List (List Nat)
  | [] => (buf, [])
  | c :: cs =>
    let r := driveCycle buf c
    let rest := driveChunks r.1 cs
    (rest.1, r.2 ++ rest.2)

/-- Delivery of a byte stream one byte per drive cycle. -/
def driveBytes (buf bytes : List Nat) : List Nat × List (List Nat) :=
  driveChunks buf (bytes.map (fun b => [b]))

/-- The compaction of `handleClient` (lines 305-312) as a standalone
operation on the live buffer: drop the consumed prefix `[0, frameEnd)`
(`memmove` of the tail to offset 0) when `frameEnd < jpegBufferPos`,
otherwise reset the buffer to empty. -/
def compactOp (buf : List Nat) (frameEnd : Nat) : List Nat :=
  if frameEnd < buf.length then buf.drop frameEnd else []

/-- Reference extraction: repeatedly find the first complete frame of
the buffer, emit it, and continue past its end. `fuel` bounds the number
of rounds; any fuel at least the buffer length is enough. -/
def extractAll (fuel : Nat) (s : List Nat) : List (List Nat) :=
  match fuel with
  | 0 => []
  | f + 1 =>
    if 4 ≤ s.length then
      let r := findJpegFrame s s.length 0
      if 0 < r.1 then
        ((s.drop r.2).take r.1) ::
          extractAll f (if r.2 + r.1 < s.length then s.drop (r.2 + r.1) else [])
      else []
    else []

/-! ### Session state and counters -/

/-- The session-owned mutable state of `handleClient`: the live buffer
(`jpegBuffer[0..jpegBufferPos)`), the stats-window counters
`frameCount`, `totalBytesReceived`, `decodeTimeMs`, and the cumulative
frame counter `frameId`. -/
structure SessionState where
  buf : List Nat
  frameCount : Nat
  frameId : Nat
  totalBytesReceived : Nat
  decodeTimeMs : Nat
deriving Repr, DecidableEq

/-- One full connected drive cycle of `handleClient` (lines 272-320 and
the final `return true`): read/append, scan, decode the extracted frame
through the oracle `dec` (`TJpgDec.drawJpg`), account `dt` milliseconds
of decode time, increment `frameCount`/`frameId` only on decode success,
compact, and apply the overflow guard. The Bool result is the function's
return value on this path (the client is connected, so `true`). -/
def cycleFull (dec : List Nat → Bool) (dt : Nat) (st : SessionState)
    (chunk : List Nat) : SessionState × Bool :=
  let a := appendStep st.buf chunk
  let s := scanStep a.1
  let ok := s.2.countP dec
  ({ buf := overflowStep s.1,
     frameCount := st.frameCount + ok,
     frameId := st.frameId + ok,
     totalBytesReceived := st.totalBytesReceived + a.2,
     decodeTimeMs := st.decodeTimeMs + (if s.2 = [] then 0 else dt) }, true)

/-- Acceptance of a new client (lines 256-265): the window counters and
the buffer are reset; `frameId` is not. -/
def onConnect (st : SessionState) : SessionState :=
  { st with frameCount := 0, totalBytesReceived := 0, decodeTimeMs := 0, buf := [] }

/-- The 2-second stats window reset (lines 330-336): the window counters
are zeroed after reporting; `frameId` is only printed, never zeroed. -/
def statsReset (st : SessionState) : SessionState :=
  { st with frameCount := 0, totalBytesReceived := 0, decodeTimeMs := 0 }

/-- Client disconnect handling in `loop` (line 347): only the buffer is
reset. -/
def onDisconnect (st : SessionState) : SessionState :=
  { st with buf := [] }

/-! ### size_t loop-bound model for `findJpegFrame` -/

/-- Modulus of `size_t` on the 32-bit ESP32 target... `size_t` is 32 bits
there; the underflow argument is identical for any width, and we keep
the width abstract by a named constant. -/
def SIZE_T_MOD : Nat := 2 ^ 32

/-- Wrapping `size_t` subtraction `a - b` for `b ≤ SIZE_T_MOD`. -/
def sizeSub (a b : Nat) : Nat := (SIZE_T_MOD + a - b) % SIZE_T_MOD

/-- The bound `len - 1` of both scanning loops of `findJpegFrame`,
computed in `size_t` arithmetic as the source does. -/
def scanBound (len : Nat) : Nat := sizeSub len 1

/-! ### The `readExactly` helper -/

/-- One iteration's view of the environment inside `readExactly`:
the `millis()` sample at the timeout check, the `c.connected()` result,
the `c.available()` result, the byte count returned by `c.read` (the
model caps it at `toRead`, which the socket API guarantees), and the
`millis()` sample used to restart the timeout guard after a successful
read. -/
structure ReadEvent where
  nowCheck : Nat
  connected : Bool
  avail : Nat
  readRet : Nat
  nowReset : Nat
deriving Repr, DecidableEq

/-- The loop of `readExactly` (lines 117-134) over an environment trace,
carrying `got` and `startTime`. `none` means the trace ended while the
loop was still waiting for data (the outcome is not yet determined);
`some (r, g)` means the function returned `r` having read `g` bytes. -/
def readExactlyLoop (len : Nat) : Nat → Nat → List ReadEvent → Option (Bool × Nat)
  | got, _, [] => if len ≤ got then some (got == len, got) else none
  | got, startTime, e :: rest =>
    if len ≤ got ∨ e.connected = false then some (got == len, got)
    else if 5000 < e.nowCheck - startTime then some (false, got)
    else if 0 < e.avail then
      let toRead := min e.avail (len - got)
      let chunk := min e.readRet toRead
      if 0 < chunk then readExactlyLoop len (got + chunk) e.nowReset rest
      else readExactlyLoop len got startTime rest
    else readExactlyLoop len got startTime rest

/-- `readExactly(client, dst, len)` entered at time `t0` against
environment trace `events`. -/
def readExactly (len t0 : Nat) (events : List ReadEvent) : Option (Bool × Nat) :=
  readExactlyLoop len 0 t0 events

/-- The broken stream: one single JPEG frame whose payload spans more
than `MAX_JPEG_SIZE - 1024` bytes (but less than `MAX_JPEG_SIZE`). -/
def p0 : List Nat := 255 :: 216 :: List.replicate 101374 0

def sBig : List Nat := p0 ++ [255, 217]

/-! ### Step lemmas for the drive cycle -/

theorem appendStep_length_le {buf : List Nat} (chunk : List Nat)
    (h : buf.length ≤ MAX_JPEG_SIZE) :
    (appendStep buf chunk).1.length ≤ MAX_JPEG_SIZE := by
  unfold appendStep
  simp only [List.length_append, List.length_take]
  omega

theorem scanStep_length (s : List Nat) : (scanStep s).1.length ≤ s.length := by
  unfold scanStep
  split
  · dsimp only
    split
    · split
      · simp [List.length_drop]
      · simp
    · simp
  · simp

theorem scanStep_frames_length (s : List Nat) : (scanStep s).2.length ≤ 1 := by
  unfold scanStep
  split
  · dsimp only
    split <;> simp
  · simp

theorem overflowStep_length (s : List Nat) :
    (overflowStep s).length ≤ MAX_JPEG_SIZE - 1024 := by
  unfold overflowStep
  split
  · simp
  · omega

theorem scanStep_of_not_hasFrame {s : List Nat} (h : ¬ hasFrame s) :
    scanStep s = (s, []) := by
  have hz := findJpegFrame_fst_eq_zero h 0
  simp [scanStep, hz]

/-! ### Claims C3, C4, C5, C6, C7, C9, C10 -/

/-- C3: the buffer invariant `jpegBufferPos ≤ MAX_JPEG_SIZE` is
preserved by every step of the drive cycle (append, scan/compact,
overflow guard), and at the overflow check a length exceeding
`MAX_JPEG_SIZE - 1024` forces a full reset, so a cycle always ends with
the length at most `MAX_JPEG_SIZE - 1024 < MAX_JPEG_SIZE`. -/
theorem claim_C3 (buf chunk : List Nat) (h : buf.length ≤ MAX_JPEG_SIZE) :
    (appendStep buf chunk).1.length ≤ MAX_JPEG_SIZE ∧
    (scanStep (appendStep buf chunk).1).1.length ≤ (appendStep buf chunk).1.length ∧
    (MAX_JPEG_SIZE - 1024 < (scanStep (appendStep buf chunk).1).1.length →
      overflowStep (scanStep (appendStep buf chunk).1).1 = []) ∧
    (driveCycle buf chunk).1.length ≤ MAX_JPEG_SIZE - 1024 ∧
    (driveCycle buf chunk).1.length ≤ MAX_JPEG_SIZE := by
  have h4 : (driveCycle buf chunk).1.length ≤ MAX_JPEG_SIZE - 1024 :=
    overflowStep_length _
  refine ⟨appendStep_length_le chunk h, scanStep_length _, ?_, h4, by omega⟩
  intro h1
  unfold overflowStep
  rw [if_pos h1]

/-- C3 witness at a concrete buffer and chunk. -/
theorem claim_C3_witness :
    (appendStep [255] [216, 1, 2]).1.length ≤ MAX_JPEG_SIZE ∧
    (scanStep (appendStep [255] [216, 1, 2]).1).1.length ≤
      (appendStep [255] [216, 1, 2]).1.length ∧
    (MAX_JPEG_SIZE - 1024 < (scanStep (appendStep [255] [216, 1, 2]).1).1.length →
      overflowStep (scanStep (appendStep [255] [216, 1, 2]).1).1 = []) ∧
    (driveCycle [255] [216, 1, 2]).1.length ≤ MAX_JPEG_SIZE - 1024 ∧
    (driveCycle [255] [216, 1, 2]).1.length ≤ MAX_JPEG_SIZE :=
  claim_C3 [255] [216, 1, 2] (by decide)

/-- C4: the append step copies exactly
`min (requested, MAX_JPEG_SIZE - length)` bytes to offset `length`,
leaves the prefix `[0, length)` untouched, never makes the buffer longer
than the capacity, grows the length by the copied count, and consumes
exactly that count from the input. -/
theorem claim_C4 (buf chunk : List Nat) (h : buf.length ≤ MAX_JPEG_SIZE) :
    (appendStep buf chunk).2 = min chunk.length (MAX_JPEG_SIZE - buf.length) ∧
    (appendStep buf chunk).1.take buf.length = buf ∧
    (appendStep buf chunk).1.drop buf.length = chunk.take (appendStep buf chunk).2 ∧
    (appendStep buf chunk).1.length = buf.length + (appendStep buf chunk).2 ∧
    (appendStep buf chunk).1.length ≤ MAX_JPEG_SIZE := by
  refine ⟨rfl, ?_, ?_, ?_, appendStep_length_le chunk h⟩
  · unfold appendStep
    simp [List.take_append_eq_append_take]
  · unfold appendStep
    simp [List.drop_append_eq_append_drop]
  · unfold appendStep
    simp only [List.length_append, List.length_take]
    omega

/-- C4 witness: more bytes offered than fit is impossible to set up at
this small size, so the witness exercises the normal path at concrete
values. -/
theorem claim_C4_witness :
    (appendStep [9, 9] [1, 2, 3]).2 = min 3 (MAX_JPEG_SIZE - 2) ∧
    (appendStep [9, 9] [1, 2, 3]).1.take 2 = [9, 9] ∧
    (appendStep [9, 9] [1, 2, 3]).1.drop 2 = [1, 2, 3].take (appendStep [9, 9] [1, 2, 3]).2 ∧
    (appendStep [9, 9] [1, 2, 3]).1.length = 2 + (appendStep [9, 9] [1, 2, 3]).2 ∧
    (appendStep [9, 9] [1, 2, 3]).1.length ≤ MAX_JPEG_SIZE :=
  claim_C4 [9, 9] [1, 2, 3] (by decide)

/-- C5: with no SOI at all, and likewise with an SOI but no complete
frame, the scanner returns size 0 — the caller sees the same zero-size
result in both cases — and the scan step leaves the buffer unchanged
(the scanner itself only reads the buffer). -/
theorem claim_C5 (s : List Nat) (fs0 : Nat) :
    ((∀ i, ¬ soiAt s i) →
      (findJpegFrame s s.length fs0).1 = 0 ∧ scanStep s = (s, [])) ∧
    ((∃ i, soiAt s i) → ¬ hasFrame s →
      (findJpegFrame s s.length fs0).1 = 0 ∧ scanStep s = (s, [])) := by
  constructor
  · intro hno
    have hnf : ¬ hasFrame s := fun ⟨i, _, _, hs, _⟩ => hno i hs
    exact ⟨findJpegFrame_fst_eq_zero hnf fs0, scanStep_of_not_hasFrame hnf⟩
  · intro _ hnf
    exact ⟨findJpegFrame_fst_eq_zero hnf fs0, scanStep_of_not_hasFrame hnf⟩

/-- C5 witness: a buffer with no SOI marker. -/
theorem claim_C5_witness :
    (findJpegFrame [0, 1, 2, 3, 4] ([0, 1, 2, 3, 4] : List Nat).length 7).1 = 0 ∧
    scanStep [0, 1, 2, 3, 4] = ([0, 1, 2, 3, 4], []) :=
  (claim_C5 [0, 1, 2, 3, 4] 7).1 (by
    intro i hi
    have h1 : i < 4 := by
      have h2 := hi.1
      simp only [List.length_cons, List.length_nil] at h2
      omega
    interval_cases i <;> exact absurd hi (by decide))

/-- C6: when a complete frame was extracted but the decode fails
(oracle constantly false), the cycle still returns `true` (the session
continues), neither `frameId` nor `frameCount` is incremented, and the
resulting buffer equals the one produced under any other decode outcome
— the frame is compacted away identically, so a malformed frame cannot
wedge the scanner. -/
theorem claim_C6 (dt : Nat) (st : SessionState) (chunk : List Nat)
    (h : (scanStep (appendStep st.buf chunk).1).2 ≠ []) :
    ((cycleFull (fun _ => false) dt st chunk).2 = true) ∧
    ((cycleFull (fun _ => false) dt st chunk).1.frameId = st.frameId) ∧
    ((cycleFull (fun _ => false) dt st chunk).1.frameCount = st.frameCount) ∧
    (∀ dec : List Nat → Bool,
      (cycleFull (fun _ => false) dt st chunk).1.buf = (cycleFull dec dt st chunk).1.buf) := by
  refine ⟨rfl, ?_, ?_, fun dec => rfl⟩
  · show st.frameId + (scanStep (appendStep st.buf chunk).1).2.countP (fun _ => false) = _
    simp
  · show st.frameCount + (scanStep (appendStep st.buf chunk).1).2.countP (fun _ => false) = _
    simp

/-- C6 witness: a one-frame chunk arriving on an empty buffer. -/
theorem claim_C6_witness :
    ((cycleFull (fun _ => false) 3 ⟨[], 0, 0, 0, 0⟩ [255, 216, 1, 2, 255, 217]).2 = true) ∧
    ((cycleFull (fun _ => false) 3 ⟨[], 0, 0, 0, 0⟩ [255, 216, 1, 2, 255, 217]).1.frameId = 0) ∧
    ((cycleFull (fun _ => false) 3 ⟨[], 0, 0, 0, 0⟩ [255, 216, 1, 2, 255, 217]).1.frameCount = 0) ∧
    (∀ dec : List Nat → Bool,
      (cycleFull (fun _ => false) 3 ⟨[], 0, 0, 0, 0⟩ [255, 216, 1, 2, 255, 217]).1.buf =
        (cycleFull dec 3 ⟨[], 0, 0, 0, 0⟩ [255, 216, 1, 2, 255, 217]).1.buf) :=
  claim_C6 3 ⟨[], 0, 0, 0, 0⟩ [255, 216, 1, 2, 255, 217] (by decide)

/-- C7 counterexample: `compact(2)` applied twice to a 6-byte buffer is
not a no-op — the second call drops two further bytes. -/
theorem claim_C7_cex :
    compactOp (compactOp [1, 2, 3, 4, 5, 6] 2) 2 ≠ compactOp [1, 2, 3, 4, 5, 6] 2 := by
  decide

/-- C7 (amended): a second `compact(k)` right after a first `compact(k)`
is a no-op exactly when `k = 0` or the first call already consumed the
whole buffer (`k ≥ length`), i.e. when the first call took the cheap
reset path or dropped nothing. -/
theorem claim_C7 (buf : List Nat) (k : Nat) :
    compactOp (compactOp buf k) k = compactOp buf k ↔ (k = 0 ∨ buf.length ≤ k) := by
  unfold compactOp
  by_cases h1 : k < buf.length
  · simp only [if_pos h1]
    by_cases h2 : k < (buf.drop k).length
    · simp only [if_pos h2]
      simp only [List.length_drop] at h2
      constructor
      · intro he
        have hl := congrArg List.length he
        simp only [List.length_drop] at hl
        omega
      · rintro (rfl | hge)
        · simp
        · omega
    · simp only [if_neg h2]
      simp only [List.length_drop] at h2
      constructor
      · intro he
        have hl := congrArg List.length he
        simp only [List.length_drop, List.length_nil] at hl
        omega
      · rintro (rfl | hge) <;> omega
  · simp only [if_neg h1]
    have : ¬ k < ([] : List Nat).length := by simp
    simp only [if_neg this]
    constructor
    · intro _; omega
    · intro _; trivial

/-- C9: loop-bound safety of `findJpegFrame`. Both loops are bounded by
the `size_t` expression `len - 1` (`scanBound`). For `len ≥ 1` (and any
`size_t`-representable `len`) that bound equals the mathematical
`len - 1` and every buffer access of either loop — `buffer[i]`,
`buffer[i+1]` in the SOI loop and `buffer[j]`, `buffer[j+1]` in the EOI
loop — is strictly below `len`. For `len = 0` the bound underflows to
`SIZE_T_MOD - 1 > 0`, so the loop body would run with `i = 0` while no
index at all is in bounds. The only call site guards the call with
`jpegBufferPos >= 4`, which implies the precondition `len ≥ 1`. -/
theorem claim_C9 :
    (∀ len, 1 ≤ len → len < SIZE_T_MOD → scanBound len = len - 1 ∧
      ∀ i, i < scanBound len → i < len ∧ i + 1 < len ∧
        ∀ j, i + 2 ≤ j → j < scanBound len → j < len ∧ j + 1 < len) ∧
    (scanBound 0 = SIZE_T_MOD - 1 ∧ 0 < scanBound 0 ∧ ∀ i : Nat, ¬ i < 0) ∧
    (∀ pos : Nat, 4 ≤ pos → 1 ≤ pos) := by
  have h32 : SIZE_T_MOD = 4294967296 := by norm_num [SIZE_T_MOD]
  refine ⟨?_, ⟨?_, ?_, fun i => by omega⟩, fun pos h => by omega⟩
  · intro len h1 h2
    rw [h32] at h2
    have hb : scanBound len = len - 1 := by
      unfold scanBound sizeSub
      rw [h32]
      omega
    rw [hb]
    exact ⟨rfl, fun i hi => ⟨by omega, by omega, fun j hj1 hj2 => ⟨by omega, by omega⟩⟩⟩
  · unfold scanBound sizeSub
    rw [h32]
  · unfold scanBound sizeSub
    rw [h32]
    norm_num

/-- C9 witness at `len = 5`. -/
theorem claim_C9_witness :
    scanBound 5 = 4 ∧
    ∀ i, i < scanBound 5 → i < 5 ∧ i + 1 < 5 ∧
      ∀ j, i + 2 ≤ j → j < scanBound 5 → j < 5 ∧ j + 1 < 5 :=
  claim_C9.1 5 (by norm_num) (by norm_num [SIZE_T_MOD])

/-- C10: `frameId` is monotone across the drive cycle, is bumped by
exactly the number of successfully decoded frames of the cycle (at most
one), and is preserved — unlike the window counters, which are zeroed —
by the stats-window reset, by accepting a new client, and by a
disconnect. -/
theorem claim_C10 :
    (∀ (dec : List Nat → Bool) (dt : Nat) (st : SessionState) (chunk : List Nat),
      st.frameId ≤ (cycleFull dec dt st chunk).1.frameId) ∧
    (∀ (dec : List Nat → Bool) (dt : Nat) (st : SessionState) (chunk : List Nat),
      (cycleFull dec dt st chunk).1.frameId =
        st.frameId + (scanStep (appendStep st.buf chunk).1).2.countP dec ∧
      (scanStep (appendStep st.buf chunk).1).2.length ≤ 1) ∧
    (∀ st : SessionState, (statsReset st).frameId = st.frameId ∧
      (statsReset st).frameCount = 0 ∧ (statsReset st).totalBytesReceived = 0 ∧
      (statsReset st).decodeTimeMs = 0) ∧
    (∀ st : SessionState, (onConnect st).frameId = st.frameId ∧
      (onConnect st).frameCount = 0 ∧ (onConnect st).buf = []) ∧
    (∀ st : SessionState, (onDisconnect st).frameId = st.frameId ∧
      (onDisconnect st).buf = []) := by
  refine ⟨?_, ?_, ?_, ?_, ?_⟩
  · intro dec dt st chunk
    show st.frameId ≤ st.frameId + _
    omega
  · intro dec dt st chunk
    exact ⟨rfl, scanStep_frames_length _⟩
  · intro st; exact ⟨rfl, rfl, rfl, rfl⟩
  · intro st; exact ⟨rfl, rfl, rfl⟩
  · intro st; exact ⟨rfl, rfl⟩

/-! ### Claim C1 -/

/-- C1: on any buffer that contains an SOI at some index `i` and an EOI
at some later index `j`, `findJpegFrame` returns exactly one range: it
writes `*frameStart = i0` for the first SOI occurrence `i0` and returns
the size `j0 + 2 - i0` for the first EOI occurrence `j0 ≥ i0 + 2` —
regardless of the initial value of `*frameStart` and of any leading
garbage before `i0`. -/
theorem claim_C1 (s : List Nat) (i j fs0 : Nat)
    (hi : soiAt s i) (hj : eoiAt s j) (hij : i < j) :
    ∃ i0 j0,
      soiAt s i0 ∧ (∀ k, k < i0 → ¬ soiAt s k) ∧
      i0 + 2 ≤ j0 ∧ eoiAt s j0 ∧ (∀ k, i0 + 2 ≤ k → k < j0 → ¬ eoiAt s k) ∧
      findJpegFrame s s.length fs0 = (j0 + 2 - i0, i0) := by
  have hf : hasFrame s := ⟨i, j, soi_eoi_sep hi hj hij, hi, hj⟩
  obtain ⟨i0, j0, hfst⟩ := hasFrame_firstSoiEoi hf
  exact ⟨i0, j0, hfst.1, hfst.2.1, hfst.2.2.1, hfst.2.2.2.1, hfst.2.2.2.2,
    findJpegFrame_eq_of_firstSoiEoi hfst fs0⟩

/-- C1 witness: the scenario buffer of the specification,
`[0xAB, FF D8, 01, 02, FF D9, 0xCD]`, with leading garbage and the frame
at `[1, 7)`. -/
theorem claim_C1_witness :
    ∃ i0 j0,
      soiAt [171, 255, 216, 1, 2, 255, 217, 205] i0 ∧
      (∀ k, k < i0 → ¬ soiAt [171, 255, 216, 1, 2, 255, 217, 205] k) ∧
      i0 + 2 ≤ j0 ∧ eoiAt [171, 255, 216, 1, 2, 255, 217, 205] j0 ∧
      (∀ k, i0 + 2 ≤ k → k < j0 → ¬ eoiAt [171, 255, 216, 1, 2, 255, 217, 205] k) ∧
      findJpegFrame [171, 255, 216, 1, 2, 255, 217, 205]
        ([171, 255, 216, 1, 2, 255, 217, 205] : List Nat).length 0 = (j0 + 2 - i0, i0) :=
  claim_C1 [171, 255, 216, 1, 2, 255, 217, 205] 1 5 0 (by decide) (by decide) (by decide)

/-! ### Claim C8 -/

/-- C8: whenever the `readExactly` loop terminates on a trace, it
returns `true` exactly when all `len` bytes were read (and it never
reads more than `len`); a quiet period exceeding the 5-second guard
while still connected aborts the read with `false`, as does losing the
connection before completion — both are returned values, not crashes —
and a successful partial read restarts the guard from the `millis()`
sample taken right after it, so the guard bounds the gap between reads,
not the total duration. -/
theorem claim_C8 :
    (∀ (events : List ReadEvent) (len got st g : Nat) (r : Bool), got ≤ len →
      readExactlyLoop len got st events = some (r, g) →
        ((r = true ↔ g = len) ∧ g ≤ len)) ∧
    (∀ (len got st : Nat) (e : ReadEvent) (rest : List ReadEvent),
      got < len → e.connected = true → 5000 < e.nowCheck - st →
        readExactlyLoop len got st (e :: rest) = some (false, got)) ∧
    (∀ (len got st : Nat) (e : ReadEvent) (rest : List ReadEvent),
      got < len → e.connected = false →
        readExactlyLoop len got st (e :: rest) = some (false, got)) ∧
    (∀ (len got st : Nat) (e : ReadEvent) (rest : List ReadEvent),
      got < len → e.connected = true → e.nowCheck - st ≤ 5000 → 0 < e.avail →
      0 < min e.readRet (min e.avail (len - got)) →
        readExactlyLoop len got st (e :: rest) =
          readExactlyLoop len (got + min e.readRet (min e.avail (len - got)))
            e.nowReset rest) := by
  refine ⟨?_, ?_, ?_, ?_⟩
  · intro events
    induction events with
    | nil =>
      intro len got st g r hle h
      simp only [readExactlyLoop] at h
      split at h
      · obtain ⟨hr, hg⟩ : (got == len) = r ∧ got = g := by
          exact ⟨congrArg Prod.fst (Option.some.inj h), congrArg Prod.snd (Option.some.inj h)⟩
        subst hr hg
        exact ⟨⟨fun hb => by simpa using hb, fun he => by simp [he]⟩, hle⟩
      · exact absurd h (by simp)
    | cons e rest ih =>
      intro len got st g r hle h
      simp only [readExactlyLoop] at h
      split at h
      · obtain ⟨hr, hg⟩ : (got == len) = r ∧ got = g := by
          exact ⟨congrArg Prod.fst (Option.some.inj h), congrArg Prod.snd (Option.some.inj h)⟩
        subst hr hg
        exact ⟨⟨fun hb => by simpa using hb, fun he => by simp [he]⟩, hle⟩
      · rename_i hexit
        push_neg at hexit
        split at h
        · obtain ⟨hr, hg⟩ : false = r ∧ got = g := by
            exact ⟨congrArg Prod.fst (Option.some.inj h), congrArg Prod.snd (Option.some.inj h)⟩
          subst hr hg
          refine ⟨⟨fun hb => by exact absurd hb (by simp), fun he => ?_⟩, hle⟩
          exact absurd he (by omega)
        · split at h
          · split at h
            · exact ih len _ _ g r (by omega) h
            · exact ih len got st g r hle h
          · exact ih len got st g r hle h
  · intro len got st e rest h1 h2 h3
    simp only [readExactlyLoop]
    rw [if_neg (by simp [h2]; omega), if_pos h3]
  · intro len got st e rest h1 h2
    simp only [readExactlyLoop]
    rw [if_pos (by simp [h2])]
    have hb : (got == len) = false := by
      simp only [beq_eq_false_iff_ne]
      omega
    rw [hb]
  · intro len got st e rest h1 h2 h3 h4 h5
    simp only [readExactlyLoop]
    rw [if_neg (by simp [h2]; omega), if_neg (by omega), if_pos h4, if_pos h5]

/-- C8 witness: a trace delivering all three requested bytes in one
read, and a trace that times out. -/
theorem claim_C8_witness :
    ((true = true ↔ 3 = 3) ∧ 3 ≤ 3) ∧
    readExactlyLoop 3 0 0 [⟨9000, true, 5, 5, 9000⟩] = some (false, 0) :=
  ⟨claim_C8.1 [⟨0, true, 3, 3, 0⟩] 3 0 0 3 true (by omega) (by decide),
    claim_C8.2.1 3 0 0 ⟨9000, true, 5, 5, 9000⟩ [] (by omega) rfl (by decide)⟩

/-! ### Drive-cycle algebra for claim C2 -/

theorem driveCycle_eq (buf chunk : List Nat) :
    driveCycle buf chunk =
      (overflowStep (scanStep (appendStep buf chunk).1).1,
        (scanStep (appendStep buf chunk).1).2) := rfl

theorem overflowStep_of_le {s : List Nat} (h : s.length ≤ MAX_JPEG_SIZE - 1024) :
    overflowStep s = s := by
  unfold overflowStep
  rw [if_neg (by omega)]

theorem appendStep_nil (buf : List Nat) : appendStep buf [] = (buf, 0) := by
  simp [appendStep]

theorem appendStep_all {buf chunk : List Nat}
    (h : buf.length + chunk.length ≤ MAX_JPEG_SIZE) :
    appendStep buf chunk = (buf ++ chunk, chunk.length) := by
  unfold appendStep
  have hm : min chunk.length (MAX_JPEG_SIZE - buf.length) = chunk.length := by omega
  rw [hm]
  dsimp only
  rw [List.take_length]

theorem not_hasFrame_nil : ¬ hasFrame ([] : List Nat) := fun hf => by
  have := hasFrame_length hf
  simp at this

/-- Unfolding of the scan step on a buffer whose first frame is
`[i0, j0 + 2)`. -/
theorem scanStep_of_firstSoiEoi {s : List Nat} {i0 j0 : Nat} (h : firstSoiEoi s i0 j0) :
    scanStep s = ((if j0 + 2 < s.length then s.drop (j0 + 2) else []),
      [(s.drop i0).take (j0 + 2 - i0)]) := by
  have hjf := findJpegFrame_eq_of_firstSoiEoi h 0
  have h4 : 4 ≤ s.length := hasFrame_length ⟨i0, j0, h.2.2.1, h.1, h.2.2.2.1⟩
  have hsep := h.2.2.1
  unfold scanStep
  rw [if_pos h4]
  dsimp only
  rw [hjf]
  rw [if_pos (by omega : 0 < j0 + 2 - i0)]
  have he : i0 + (j0 + 2 - i0) = j0 + 2 := by omega
  rw [he]

/-- Unfolding of the reference extraction on such a buffer. -/
theorem extractAll_of_firstSoiEoi {s : List Nat} {i0 j0 : Nat}
    (h : firstSoiEoi s i0 j0) (f : Nat) :
    extractAll (f + 1) s = ((s.drop i0).take (j0 + 2 - i0)) ::
      extractAll f (if j0 + 2 < s.length then s.drop (j0 + 2) else []) := by
  have hjf := findJpegFrame_eq_of_firstSoiEoi h 0
  have h4 : 4 ≤ s.length := hasFrame_length ⟨i0, j0, h.2.2.1, h.1, h.2.2.2.1⟩
  have hsep := h.2.2.1
  simp only [extractAll]
  rw [if_pos h4]
  rw [hjf]
  rw [if_pos (by omega : 0 < j0 + 2 - i0)]
  have he : i0 + (j0 + 2 - i0) = j0 + 2 := by omega
  rw [he]

theorem extractAll_unfold_pos {s : List Nat} {i0 j0 : Nat} (h : firstSoiEoi s i0 j0)
    (fuel f : Nat) (hfuel : fuel = f + 1) :
    extractAll fuel s = ((s.drop i0).take (j0 + 2 - i0)) ::
      extractAll f (if j0 + 2 < s.length then s.drop (j0 + 2) else []) := by
  subst hfuel
  exact extractAll_of_firstSoiEoi h f

theorem extractAll_of_not_hasFrame {s : List Nat} (h : ¬ hasFrame s) (fuel : Nat) :
    extractAll fuel s = [] := by
  cases fuel with
  | zero => rfl
  | succ f =>
    simp only [extractAll]
    by_cases h4 : 4 ≤ s.length
    · rw [if_pos h4]
      rw [findJpegFrame_fst_eq_zero h 0]
      simp
    · rw [if_neg h4]

/-- The fuel of `extractAll` is irrelevant once it reaches the buffer
length. -/
theorem extractAll_bounded : ∀ (n : Nat) (s : List Nat) (F : Nat),
    s.length ≤ n → s.length ≤ F → extractAll F s = extractAll s.length s := by
  intro n
  induction n with
  | zero =>
    intro s F h0 _
    have hnf : ¬ hasFrame s := fun hf => by have := hasFrame_length hf; omega
    rw [extractAll_of_not_hasFrame hnf, extractAll_of_not_hasFrame hnf]
  | succ n ih =>
    intro s F hn hF
    by_cases hf : hasFrame s
    · obtain ⟨i0, j0, hfst⟩ := hasFrame_firstSoiEoi hf
      have h4 := hasFrame_length hf
      have hjlen : j0 + 1 < s.length := hfst.2.2.2.1.1
      have hsep : i0 + 2 ≤ j0 := hfst.2.2.1
      rw [extractAll_unfold_pos hfst F (F - 1) (by omega)]
      rw [extractAll_unfold_pos hfst s.length (s.length - 1) (by omega)]
      have hsl : (if j0 + 2 < s.length then s.drop (j0 + 2) else []).length + 4 ≤ s.length := by
        split
        · simp only [List.length_drop]; omega
        · simp only [List.length_nil]; omega
      congr 1
      rw [ih _ (F - 1) (by omega) (by omega)]
      rw [ih _ (s.length - 1) (by omega) (by omega)]
    · rw [extractAll_of_not_hasFrame hf, extractAll_of_not_hasFrame hf]

theorem extractAll_eq_of_le (s : List Nat) (F : Nat) (hF : s.length ≤ F) :
    extractAll F s = extractAll s.length s :=
  extractAll_bounded s.length s F (Nat.le_refl _) hF

theorem driveBytes_nil (buf : List Nat) : driveBytes buf [] = (buf, []) := rfl

theorem driveBytes_cons (buf : List Nat) (b : Nat) (bs : List Nat) :
    driveBytes buf (b :: bs) =
      ((driveBytes (driveCycle buf [b]).1 bs).1,
        (driveCycle buf [b]).2 ++ (driveBytes (driveCycle buf [b]).1 bs).2) := rfl

theorem driveChunks_cons (buf : List Nat) (c : List Nat) (cs : List (List Nat)) :
    driveChunks buf (c :: cs) =
      ((driveChunks (driveCycle buf c).1 cs).1,
        (driveCycle buf c).2 ++ (driveChunks (driveCycle buf c).1 cs).2) := rfl

/-- Markers survive extension of the buffer on the right, as does
first-ness: the whole `firstSoiEoi` description transfers. -/
theorem firstSoiEoi_append {u : List Nat} {i0 j0 : Nat}
    (h : firstSoiEoi u i0 j0) (t : List Nat) : firstSoiEoi (u ++ t) i0 j0 := by
  obtain ⟨⟨hil, hip⟩, hmin, hsep, ⟨hjl, hjp⟩, hemin⟩ := h
  refine ⟨⟨?_, (pairAt_append_left t hil).mpr hip⟩, ?_, hsep,
    ⟨?_, (pairAt_append_left t hjl).mpr hjp⟩, ?_⟩
  · simp only [List.length_append]; omega
  · intro k hk hks
    have hk1 : k + 1 < u.length := by omega
    exact hmin k hk ⟨hk1, (pairAt_append_left t hk1).mp hks.2⟩
  · simp only [List.length_append]; omega
  · intro k hk1 hk2 hke
    have hkb : k + 1 < u.length := by omega
    exact hemin k hk1 hk2 ⟨hkb, (pairAt_append_left t hkb).mp hke.2⟩

/-- A frame reaching exactly the end of `u` reads the same bytes from
`u ++ t` as from `u`. -/
theorem frame_take_append {u : List Nat} (t : List Nat) {i0 L : Nat}
    (h : i0 + L = u.length) :
    ((u ++ t).drop i0).take L = (u.drop i0).take L := by
  have h1 : (u ++ t).drop i0 = u.drop i0 ++ t := by
    rw [List.drop_append_eq_append_drop, show i0 - u.length = 0 from by omega,
      List.drop_zero]
  have h2 : (u.drop i0).take L = u.drop i0 :=
    List.take_of_length_le (by simp only [List.length_drop]; omega)
  rw [h1, List.take_append_eq_append_take, h2,
    show L - (u.drop i0).length = 0 from by simp only [List.length_drop]; omega,
    List.take_zero, List.append_nil]

/-- Repeated empty cycles on a buffer below the overflow margin extract
exactly what the reference extraction does. -/
theorem drive_empty_frames : ∀ (k : Nat) (buf : List Nat),
    buf.length ≤ MAX_JPEG_SIZE - 1024 →
    (driveChunks buf (List.replicate k [])).2 = extractAll k buf := by
  intro k
  induction k with
  | zero => intro buf _; rfl
  | succ n ih =>
    intro buf h
    rw [List.replicate_succ, driveChunks_cons]
    by_cases hf : hasFrame buf
    · obtain ⟨i0, j0, hfst⟩ := hasFrame_firstSoiEoi hf
      have hscan := scanStep_of_firstSoiEoi hfst
      have hsuflen : (if j0 + 2 < buf.length then buf.drop (j0 + 2) else []).length ≤
          buf.length := by
        split
        · simp [List.length_drop]
        · simp
      have hcyc : driveCycle buf [] =
          ((if j0 + 2 < buf.length then buf.drop (j0 + 2) else []),
            [(buf.drop i0).take (j0 + 2 - i0)]) := by
        rw [driveCycle_eq, appendStep_nil]
        dsimp only
        rw [hscan]
        dsimp only
        rw [overflowStep_of_le (by omega)]
      rw [hcyc]
      dsimp only
      rw [ih _ (by omega)]
      rw [extractAll_of_firstSoiEoi hfst n]
      rfl
    · have hcyc : driveCycle buf [] = (buf, []) := by
        rw [driveCycle_eq, appendStep_nil]
        dsimp only
        rw [scanStep_of_not_hasFrame hf]
        dsimp only
        rw [overflowStep_of_le h]
      rw [hcyc]
      dsimp only
      rw [ih _ h]
      rw [extractAll_of_not_hasFrame hf, extractAll_of_not_hasFrame hf]
      rfl

/-- Numeric value of the capacity, for linear arithmetic. -/
theorem MAX_JPEG_SIZE_eq : MAX_JPEG_SIZE = 102400 := rfl

theorem appendStep_single {buf : List Nat} (b : Nat)
    (h : buf.length + 1 ≤ MAX_JPEG_SIZE) :
    appendStep buf [b] = (buf ++ [b], 1) := by
  have h2 : buf.length + ([b] : List Nat).length ≤ MAX_JPEG_SIZE := by simpa using h
  rw [appendStep_all h2]
  simp

/-- One cycle that appends one byte and finds no complete frame, with
room to spare, just extends the buffer. -/
theorem driveCycle_single_no_frame {buf : List Nat} (b : Nat)
    (hnf : ¬ hasFrame (buf ++ [b]))
    (hroom : buf.length + 1 ≤ MAX_JPEG_SIZE - 1024) :
    driveCycle buf [b] = (buf ++ [b], []) := by
  have hM := MAX_JPEG_SIZE_eq
  have ha : appendStep buf [b] = (buf ++ [b], 1) := appendStep_single b (by omega)
  have hlen : (buf ++ [b]).length ≤ MAX_JPEG_SIZE - 1024 := by
    simp only [List.length_append, List.length_cons, List.length_nil]
    omega
  rw [driveCycle_eq, ha]
  dsimp only
  rw [scanStep_of_not_hasFrame hnf]
  dsimp only
  rw [overflowStep_of_le hlen]

/-- Feeding one byte per cycle while no prefix ever completes a frame
just accumulates the bytes (no extraction, no overflow reset). -/
theorem driveBytes_no_frame : ∀ (bytes buf : List Nat),
    (∀ n, n ≤ bytes.length → ¬ hasFrame (buf ++ bytes.take n)) →
    buf.length + bytes.length ≤ MAX_JPEG_SIZE - 1024 →
    driveBytes buf bytes = (buf ++ bytes, []) := by
  intro bytes
  induction bytes with
  | nil => intro buf _ _; simp [driveBytes_nil]
  | cons b bs ih =>
    intro buf h hb
    simp only [List.length_cons] at hb
    rw [driveBytes_cons]
    have hnf : ¬ hasFrame (buf ++ [b]) := by
      have h1 := h 1 (by simp)
      simpa using h1
    have hcyc : driveCycle buf [b] = (buf ++ [b], []) :=
      driveCycle_single_no_frame b hnf (by omega)
    have hrec1 : ∀ n, n ≤ bs.length → ¬ hasFrame ((buf ++ [b]) ++ bs.take n) := by
      intro n hn
      have h2 := h (n + 1) (by simpa using hn)
      simpa [List.append_assoc] using h2
    have hrec2 : (buf ++ [b]).length + bs.length ≤ MAX_JPEG_SIZE - 1024 := by
      simp only [List.length_append, List.length_cons, List.length_nil]
      omega
    rw [hcyc]
    dsimp only
    rw [ih (buf ++ [b]) hrec1 hrec2]
    simp

/-- Incremental delivery: one byte per drive cycle extracts exactly the
reference extraction of the whole stream, provided the initial buffer
holds no complete frame and the total data stays below the overflow
margin. -/
theorem driveBytes_frames : ∀ (bytes buf : List Nat), ¬ hasFrame buf →
    buf.length + bytes.length ≤ MAX_JPEG_SIZE - 1024 →
    (driveBytes buf bytes).2 = extractAll (buf.length + bytes.length) (buf ++ bytes) := by
  have hM := MAX_JPEG_SIZE_eq
  intro bytes
  induction bytes with
  | nil =>
    intro buf hf _
    rw [driveBytes_nil, List.append_nil, extractAll_of_not_hasFrame hf]
  | cons b bs ih =>
    intro buf hf hb
    simp only [List.length_cons] at hb
    rw [driveBytes_cons]
    by_cases hF : hasFrame (buf ++ [b])
    · have ha : appendStep buf [b] = (buf ++ [b], 1) := appendStep_single b (by omega)
      obtain ⟨i0, j0, hfst⟩ := hasFrame_firstSoiEoi hF
      have hjlt : j0 + 1 < (buf ++ [b]).length := hfst.2.2.2.1.1
      have hsep : i0 + 2 ≤ j0 := hfst.2.2.1
      have hulen : (buf ++ [b]).length = buf.length + 1 := by simp
      rw [hulen] at hjlt
      -- the frame found on arrival of `b` ends exactly at the new byte
      have hj2 : j0 + 2 = buf.length + 1 := by
        by_contra hne
        have hjb : j0 + 1 < buf.length := by omega
        have hib : i0 + 1 < buf.length := by omega
        exact hf ⟨i0, j0, hsep,
          ⟨hib, (pairAt_append_left [b] hib).mp hfst.1.2⟩,
          ⟨hjb, (pairAt_append_left [b] hjb).mp hfst.2.2.2.1.2⟩⟩
      have hscan := scanStep_of_firstSoiEoi hfst
      have hnosuf : ¬ (j0 + 2 < (buf ++ [b]).length) := by rw [hulen]; omega
      have hsuf : (if j0 + 2 < (buf ++ [b]).length then (buf ++ [b]).drop (j0 + 2)
          else []) = [] := if_neg hnosuf
      have hov : overflowStep ([] : List Nat) = [] := overflowStep_of_le (by simp)
      have hcyc : driveCycle buf [b] =
          ([], [((buf ++ [b]).drop i0).take (j0 + 2 - i0)]) := by
        rw [driveCycle_eq, ha]
        dsimp only
        rw [hscan]
        dsimp only
        rw [hsuf, hov]
      rw [hcyc]
      dsimp only
      have hb0 : ([] : List Nat).length + bs.length ≤ MAX_JPEG_SIZE - 1024 := by
        simp only [List.length_nil]
        omega
      rw [ih [] not_hasFrame_nil hb0]
      simp only [List.nil_append, List.length_nil, Nat.zero_add]
      have ht : buf ++ b :: bs = (buf ++ [b]) ++ bs := by simp
      rw [ht]
      have hfst_t : firstSoiEoi ((buf ++ [b]) ++ bs) i0 j0 := firstSoiEoi_append hfst bs
      have hfuel : buf.length + (b :: bs).length = (buf.length + bs.length) + 1 := by
        simp only [List.length_cons]
        omega
      rw [hfuel, extractAll_of_firstSoiEoi hfst_t (buf.length + bs.length)]
      simp only [List.singleton_append]
      congr 1
      · have hje : i0 + (j0 + 2 - i0) = (buf ++ [b]).length := by rw [hulen]; omega
        exact (frame_take_append bs hje).symm
      · have htlen : ((buf ++ [b]) ++ bs).length = buf.length + 1 + bs.length := by
          simp only [List.length_append, List.length_cons, List.length_nil]
        have hsuf_t : (if j0 + 2 < ((buf ++ [b]) ++ bs).length
            then ((buf ++ [b]) ++ bs).drop (j0 + 2) else []) = bs := by
          by_cases hbs : bs = []
          · subst hbs
            have hn : ¬ (j0 + 2 < ((buf ++ [b]) ++ ([] : List Nat)).length) := by
              rw [htlen]
              simp only [List.length_nil]
              omega
            rw [if_neg hn]
          · have hpos : 0 < bs.length := List.length_pos.mpr hbs
            have hy : j0 + 2 < ((buf ++ [b]) ++ bs).length := by rw [htlen]; omega
            rw [if_pos hy]
            have hj2u : j0 + 2 = (buf ++ [b]).length := by rw [hulen]; omega
            rw [hj2u, List.drop_append_eq_append_drop, List.drop_length]
            simp
        rw [hsuf_t]
        have hfb : extractAll (buf.length + bs.length) bs = extractAll bs.length bs :=
          extractAll_bounded (buf.length + bs.length) bs (buf.length + bs.length)
            (by omega) (by omega)
        rw [hfb]
    · have hcyc : driveCycle buf [b] = (buf ++ [b], []) :=
        driveCycle_single_no_frame b hF (by omega)
      have hrec2 : (buf ++ [b]).length + bs.length ≤ MAX_JPEG_SIZE - 1024 := by
        simp only [List.length_append, List.length_cons, List.length_nil]
        omega
      rw [hcyc]
      dsimp only
      rw [ih (buf ++ [b]) hF hrec2]
      simp only [List.nil_append]
      have h1 : (buf ++ [b]).length + bs.length = buf.length + (b :: bs).length := by
        simp only [List.length_append, List.length_cons, List.length_nil]
        omega
      have h2 : (buf ++ [b]) ++ bs = buf ++ b :: bs := by simp
      rw [h1, h2]

/-- Batch delivery: a single append of the whole stream followed by
repeated empty scan/extract/compact cycles also extracts exactly the
reference extraction, under the same size bound. -/
theorem drive_batch_frames (s : List Nat) (h : s.length ≤ MAX_JPEG_SIZE - 1024) :
    (driveChunks [] ([s] ++ List.replicate s.length [])).2 =
      extractAll (s.length + 1) s := by
  have hM := MAX_JPEG_SIZE_eq
  have ha : appendStep [] s = (s, s.length) := by
    have h2 : ([] : List Nat).length + s.length ≤ MAX_JPEG_SIZE := by
      simp only [List.length_nil]
      omega
    rw [appendStep_all h2]
    simp
  rw [List.singleton_append, driveChunks_cons]
  by_cases hf : hasFrame s
  · obtain ⟨i0, j0, hfst⟩ := hasFrame_firstSoiEoi hf
    have hscan := scanStep_of_firstSoiEoi hfst
    have hsuflen : (if j0 + 2 < s.length then s.drop (j0 + 2) else []).length ≤
        s.length := by
      split
      · simp [List.length_drop]
      · simp
    have hcyc : driveCycle [] s =
        ((if j0 + 2 < s.length then s.drop (j0 + 2) else []),
          [(s.drop i0).take (j0 + 2 - i0)]) := by
      rw [driveCycle_eq, ha]
      dsimp only
      rw [hscan]
      dsimp only
      rw [overflowStep_of_le (by omega)]
    rw [hcyc]
    dsimp only
    rw [drive_empty_frames s.length _ (by omega)]
    rw [extractAll_of_firstSoiEoi hfst s.length]
    rfl
  · have hcyc : driveCycle [] s = (s, []) := by
      rw [driveCycle_eq, ha]
      dsimp only
      rw [scanStep_of_not_hasFrame hf]
      dsimp only
      rw [overflowStep_of_le h]
    rw [hcyc]
    dsimp only
    rw [drive_empty_frames s.length s h]
    rw [extractAll_of_not_hasFrame hf, extractAll_of_not_hasFrame hf]
    rfl

/-! ### Claim C2 -/

/-- C2 (amended): for a stream that fits below the overflow margin
(`length ≤ MAX_JPEG_SIZE - 1024` bytes), delivering it one byte per
drive cycle extracts exactly the same frame sequence as a single append
followed by repeated scan/extract/compact cycles. (The counterexample
below shows the bound is necessary: without it the overflow reset can
fire mid-frame in one-byte mode while batch mode extracts the frame.) -/
theorem claim_C2 (s : List Nat) (h : s.length ≤ MAX_JPEG_SIZE - 1024) :
    (driveBytes [] s).2 = (driveChunks [] ([s] ++ List.replicate s.length [])).2 := by
  rw [drive_batch_frames s h]
  have hinc := driveBytes_frames s [] not_hasFrame_nil (by simpa using h)
  simp only [List.length_nil, Nat.zero_add, List.nil_append] at hinc
  rw [hinc]
  rw [extractAll_eq_of_le s (s.length + 1) (by omega)]

/-- C2 witness: a small two-frame stream with garbage in between. -/
theorem claim_C2_witness :
    (driveBytes []
        [255, 216, 7, 255, 217, 9, 255, 216, 255, 217]).2 =
      (driveChunks []
        ([[255, 216, 7, 255, 217, 9, 255, 216, 255, 217]] ++
          List.replicate
            ([255, 216, 7, 255, 217, 9, 255, 216, 255, 217] : List Nat).length [])).2 :=
  claim_C2 [255, 216, 7, 255, 217, 9, 255, 216, 255, 217] (by decide)

/-! ### Claim C2 counterexample: a frame wider than the overflow margin -/

theorem getD_take (l : List Nat) (n k : Nat) (h : k < n) :
    (l.take n).getD k 0 = l.getD k 0 := by
  rw [List.getD_eq_getD_get?, List.getD_eq_getD_get?, List.get?_eq_getElem?,
    List.get?_eq_getElem?, List.getElem?_take, if_pos h]

theorem replicate_getD_zero : ∀ (n m : Nat), (List.replicate n (0 : Nat)).getD m 0 = 0 := by
  intro n
  induction n with
  | zero => intro m; rfl
  | succ n ih =>
    intro m
    rw [List.replicate_succ]
    cases m with
    | zero => rfl
    | succ m => exact ih m

theorem p0_length : p0.length = 101376 := by
  unfold p0
  rw [List.length_cons, List.length_cons, List.length_replicate]

theorem sBig_length : sBig.length = 101378 := by
  unfold sBig
  rw [List.length_append, p0_length]
  rfl

theorem p0_getD_zero : p0.getD 0 0 = 255 := rfl

theorem p0_getD_one : p0.getD 1 0 = 216 := rfl

theorem p0_getD_ge2 : ∀ k, 2 ≤ k → p0.getD k 0 = 0 := by
  intro k hk
  obtain ⟨m, rfl⟩ : ∃ m, k = m + 2 := ⟨k - 2, by omega⟩
  show (255 :: 216 :: List.replicate 101374 0).getD (m + 2) 0 = 0
  rw [List.getD_cons_succ, List.getD_cons_succ]
  exact replicate_getD_zero _ m

theorem p0_getD_cases (k : Nat) :
    p0.getD k 0 = 255 ∨ p0.getD k 0 = 216 ∨ p0.getD k 0 = 0 := by
  match k with
  | 0 => exact Or.inl p0_getD_zero
  | 1 => exact Or.inr (Or.inl p0_getD_one)
  | m + 2 => exact Or.inr (Or.inr (p0_getD_ge2 (m + 2) (by omega)))

theorem not_hasFrame_of_no_eoi {t : List Nat}
    (h : ∀ j, 2 ≤ j → ¬ pairAt t 217 j) : ¬ hasFrame t :=
  fun ⟨_, j, hij, _, he⟩ => h j (by omega) he.2

/-- No prefix of `p0` contains an EOI (its bytes past index 1 are all
zero), hence no complete frame. -/
theorem p0_take_no_frame : ∀ n, n ≤ p0.length → ¬ hasFrame (p0.take n) := by
  intro n _
  apply not_hasFrame_of_no_eoi
  intro j hj hp
  have hp1 := hp.1
  by_cases hjn : j < n
  · rw [getD_take p0 n j hjn, p0_getD_ge2 j hj] at hp1
    omega
  · rw [List.getD_eq_default _ _ (by simp only [List.length_take]; omega)] at hp1
    omega

/-- Bytes of `p0 ++ [255]` (the state right before the overflow reset). -/
theorem u1_getD (m : Nat) : (p0 ++ [255]).getD m 0 =
    if m < 101376 then p0.getD m 0 else if m = 101376 then 255 else 0 := by
  by_cases h1 : m < 101376
  · rw [List.getD_append _ _ _ _ (by rw [p0_length]; omega), if_pos h1]
  · rw [List.getD_append_right _ _ _ _ (by rw [p0_length]; omega), if_neg h1, p0_length]
    by_cases h2 : m = 101376
    · subst h2
      rfl
    · rw [if_neg h2]
      rw [List.getD_eq_default]
      simp only [List.length_cons, List.length_nil]
      omega

theorem u1_no_frame : ¬ hasFrame (p0 ++ [255]) := by
  apply not_hasFrame_of_no_eoi
  intro j _ hp
  have hp2 := hp.2
  rw [u1_getD (j + 1)] at hp2
  rcases p0_getD_cases (j + 1) with hc | hc | hc <;>
    · split at hp2 <;> [omega; skip]
      split at hp2 <;> omega

/-- Bytes of `sBig`. -/
theorem sBig_getD (m : Nat) : sBig.getD m 0 =
    if m < 101376 then p0.getD m 0
    else if m = 101376 then 255 else if m = 101377 then 217 else 0 := by
  unfold sBig
  by_cases h1 : m < 101376
  · rw [List.getD_append _ _ _ _ (by rw [p0_length]; omega), if_pos h1]
  · rw [List.getD_append_right _ _ _ _ (by rw [p0_length]; omega), if_neg h1, p0_length]
    by_cases h2 : m = 101376
    · subst h2
      rfl
    · rw [if_neg h2]
      by_cases h3 : m = 101377
      · subst h3
        rfl
      · rw [if_neg h3]
        rw [List.getD_eq_default]
        simp only [List.length_cons, List.length_nil]
        omega

/-- `sBig` is exactly one full frame: first SOI at 0, first EOI at
101376. -/
theorem sBig_firstSoiEoi : firstSoiEoi sBig 0 101376 := by
  have hlen := sBig_length
  refine ⟨⟨by omega, ?_, ?_⟩, fun k hk => by omega, by omega, ⟨by omega, ?_, ?_⟩, ?_⟩
  · rw [sBig_getD 0]
    rfl
  · rw [sBig_getD 1]
    rfl
  · rw [sBig_getD 101376]
    rfl
  · rw [sBig_getD 101377]
    rfl
  · intro k hk1 hk2 hke
    have hp1 := hke.2.1
    rw [sBig_getD k, if_pos (by omega), p0_getD_ge2 k (by omega)] at hp1
    omega

theorem driveChunks_append : ∀ (cs ds : List (List Nat)) (buf : List Nat),
    driveChunks buf (cs ++ ds) =
      ((driveChunks (driveChunks buf cs).1 ds).1,
        (driveChunks buf cs).2 ++ (driveChunks (driveChunks buf cs).1 ds).2) := by
  intro cs
  induction cs with
  | nil => intro ds buf; rfl
  | cons c cs ih =>
    intro ds buf
    simp only [List.cons_append, driveChunks_cons]
    rw [ih ds (driveCycle buf c).1]
    simp [List.append_assoc]

theorem driveBytes_append (t1 t2 buf : List Nat) :
    driveBytes buf (t1 ++ t2) =
      ((driveBytes (driveBytes buf t1).1 t2).1,
        (driveBytes buf t1).2 ++ (driveBytes (driveBytes buf t1).1 t2).2) := by
  unfold driveBytes
  rw [List.map_append, driveChunks_append]

theorem phase1_sBig : driveBytes [] p0 = (p0, []) := by
  have h1 : ∀ n, n ≤ p0.length → ¬ hasFrame (([] : List Nat) ++ p0.take n) := by
    intro n hn
    rw [List.nil_append]
    exact p0_take_no_frame n hn
  have h2 : ([] : List Nat).length + p0.length ≤ MAX_JPEG_SIZE - 1024 := by
    rw [List.length_nil, p0_length, MAX_JPEG_SIZE_eq]
  have h3 := driveBytes_no_frame p0 [] h1 h2
  simpa using h3

theorem cycle_overflow_sBig : driveCycle p0 [255] = ([], []) := by
  have ha : appendStep p0 [255] = (p0 ++ [255], 1) :=
    appendStep_single 255 (by rw [p0_length, MAX_JPEG_SIZE_eq]; omega)
  have hlt : MAX_JPEG_SIZE - 1024 < (p0 ++ [255]).length := by
    rw [List.length_append, p0_length, MAX_JPEG_SIZE_eq]
    norm_num
  have hov : overflowStep (p0 ++ [255]) = [] := by
    unfold overflowStep
    rw [if_pos hlt]
  rw [driveCycle_eq, ha]
  dsimp only
  rw [scanStep_of_not_hasFrame u1_no_frame]
  dsimp only
  rw [hov]

theorem cycle_last_sBig : driveCycle [] [217] = ([217], []) := by
  have ha : appendStep [] [217] = ([217], 1) :=
    appendStep_single 217 (by rw [List.length_nil, MAX_JPEG_SIZE_eq]; omega)
  have hscan : scanStep [217] = ([217], []) := by
    unfold scanStep
    rw [if_neg (by simp)]
  have hov : overflowStep [217] = [217] :=
    overflowStep_of_le (by rw [MAX_JPEG_SIZE_eq]; simp)
  rw [driveCycle_eq, ha]
  dsimp only
  rw [hscan]
  dsimp only
  rw [hov]

/-- One-byte feeding of `sBig`: the buffer crosses the overflow margin
one byte before the closing EOI byte arrives, the accumulator is reset,
and no frame is ever extracted. -/
theorem driveBytes_sBig : (driveBytes [] sBig).2 = [] := by
  rw [show sBig = p0 ++ [255, 217] from rfl, driveBytes_append]
  rw [phase1_sBig]
  dsimp only
  rw [List.nil_append]
  rw [driveBytes_cons, cycle_overflow_sBig]
  dsimp only
  rw [driveBytes_cons, cycle_last_sBig]
  dsimp only
  rw [driveBytes_nil]
  simp

theorem cycle_batch_sBig : driveCycle [] sBig = ([], [sBig]) := by
  have ha : appendStep [] sBig = (sBig, sBig.length) := by
    have h2 : ([] : List Nat).length + sBig.length ≤ MAX_JPEG_SIZE := by
      rw [List.length_nil, sBig_length, MAX_JPEG_SIZE_eq]
      omega
    rw [appendStep_all h2]
    simp
  have hscan := scanStep_of_firstSoiEoi sBig_firstSoiEoi
  have hnosuf : ¬ (101376 + 2 < sBig.length) := by rw [sBig_length]; omega
  have hframe : (sBig.drop 0).take (101376 + 2 - 0) = sBig := by
    rw [List.drop_zero]
    exact List.take_of_length_le (by rw [sBig_length])
  rw [driveCycle_eq, ha]
  dsimp only
  rw [hscan]
  dsimp only
  rw [if_neg hnosuf, hframe]
  rw [overflowStep_of_le (show ([] : List Nat).length ≤ MAX_JPEG_SIZE - 1024 by
    rw [List.length_nil, MAX_JPEG_SIZE_eq]; omega)]

/-- Batch feeding of `sBig`: the single append holds the whole frame
(it fits the capacity), so the very first scan extracts it. -/
theorem driveBatch_sBig :
    (driveChunks [] ([sBig] ++ List.replicate sBig.length [])).2 = [sBig] := by
  rw [List.singleton_append, driveChunks_cons, cycle_batch_sBig]
  dsimp only
  rw [drive_empty_frames sBig.length []
    (show ([] : List Nat).length ≤ MAX_JPEG_SIZE - 1024 by
      rw [List.length_nil, MAX_JPEG_SIZE_eq]
      omega)]
  rw [extractAll_of_not_hasFrame not_hasFrame_nil]
  rw [List.append_nil]

/-- C2 counterexample: for the single oversized frame `sBig`
(101378 bytes, above the 101376-byte overflow margin but within the
102400-byte capacity), one-byte delivery extracts no frame while batch
delivery extracts the frame — so chunk granularity does change the
output, refuting the unrestricted claim. -/
theorem claim_C2_cex :
    ¬ ((driveBytes [] sBig).2 =
      (driveChunks [] ([sBig] ++ List.replicate sBig.length [])).2) := by
  rw [driveBytes_sBig, driveBatch_sBig]
  simp

/-- C7 witness for the amended equivalence, at a concrete buffer where
the first call consumes everything. -/
theorem claim_C7_witness :
    compactOp (compactOp [1, 2, 3] 3) 3 = compactOp [1, 2, 3] 3 ↔
      (3 = 0 ∨ ([1, 2, 3] : List Nat).length ≤ 3) :=
  claim_C7 [1, 2, 3] 3
